import Mathlib

/-!
Verification of the note-sync utility (`src/sync_notes.py`) against its
natural-language specification.  The Python source is shallowly embedded:
strings are `List Char`, the regular-expression operations used by the
source are embedded as executable scanners with the exact leftmost /
greedy / lazy semantics of Python's `re` module on the patterns that
occur in the code, and external effects (filesystem existence checks,
image copying, the note write) are oracles passed in as input data.
Recursions that consume a variable number of characters per step are
written with an explicit fuel argument, instantiated with more fuel than
the input length, so that every definition is computable by the kernel;
each such step consumes at least one character, so the fuel bound is
never reached.
-/

set_option maxRecDepth 100000

namespace SyncNotes

/-- Strings of the embedded program: Python `str` as a list of code points. -/
abbrev Str := List Char

/-- The backtick character (code 96). -/
def btick : Char := Char.ofNat 96

/-- The open-brace character (code 123), counted by `_is_valid_sentence`. -/
def obrace : Char := Char.ofNat 123

/-- Python whitespace, as matched by `\s` in `re` (Unicode mode) and by
`str.strip` / `str.isspace`. -/
def isWs (c : Char) : Bool :=
  c ∈ ([' ', '\t', '\n', '\r', '\x0b', '\x0c',
        '\x1c', '\x1d', '\x1e', '\x1f', '\x85', '\xa0',
        ' ', ' ', ' ', ' ', ' ', ' ',
        ' ', ' ', ' ', ' ', ' ', ' ',
        ' ', ' ', ' ', ' ', '　'] : List Char)

/-- `p` is a prefix of `s` (Python `str.startswith`, and the anchored step
of `str.replace` / `in`). -/
def isPre : Str → Str → Bool
  | [], _ => true
  | _ :: _, [] => false
  | a :: as, b :: bs => a = b && isPre as bs

/-- Substring test: Python `needle in haystack`. -/
def hasSub (pat : Str) : Str → Bool
  | [] => isPre pat []
  | c :: r => isPre pat (c :: r) || hasSub pat r

/-- Fueled core of Python `str.replace(old, rep)`: replace every
non-overlapping occurrence of `old`, scanning left to right.  (For
`old = ""` Python would insert `rep` between characters; the source only
ever calls `replace` with a non-empty `old`, and the embedding leaves the
text unchanged in that case, which coincides with Python whenever
`rep = ""`.) -/
def strReplaceF : Nat → Str → Str → Str → Str
  | 0, _, _, s => s
  | f + 1, old, rep, s =>
    if old ≠ [] ∧ isPre old s = true then
      rep ++ strReplaceF f old rep (s.drop old.length)
    else
      match s with
      | [] => []
      | c :: r => c :: strReplaceF f old rep r

/-- Python `s.replace(old, rep)`. -/
def strReplace (old rep s : Str) : Str := strReplaceF (s.length + 1) old rep s

/-- Fueled count of the non-overlapping occurrences of `old` that the
left-to-right scan of `str.replace` finds. -/
def countOccF : Nat → Str → Str → Nat
  | 0, _, _ => 0
  | f + 1, old, s =>
    if old ≠ [] ∧ isPre old s = true then
      1 + countOccF f old (s.drop old.length)
    else
      match s with
      | [] => 0
      | _ :: r => countOccF f old r

/-- Number of occurrences of `old` in `s` removed by one `replace` pass. -/
def countOcc (old s : Str) : Nat := countOccF (s.length + 1) old s

/-- Python `str.strip()`: drop whitespace from both ends. -/
def stripStr (l : Str) : Str :=
  ((l.dropWhile isWs).reverse.dropWhile isWs).reverse

/-- Index of the last occurrence of `c` in the list, if any. -/
def lastIdxOf (c : Char) : Str → Option Nat
  | [] => none
  | x :: xs =>
    match lastIdxOf c xs with
    | some k => some (k + 1)
    | none => if x = c then some 0 else none

/-- After an initial newline, try to complete a match of `\n\s*\n`
(the separator of `re.split(r'\n\s*\n', ...)`): the greedy `\s*`
backtracks so the match ends at the last newline inside the maximal
whitespace run.  Returns the rest of the input after the match. -/
def blankTail (r : Str) : Option Str :=
  let w := r.takeWhile isWs
  match lastIdxOf '\n' w with
  | some k => some (r.drop (k + 1))
  | none => none

/-- Fueled core of `re.split(r'\n\s*\n', content)`. -/
def splitBlankF : Nat → Str → Str → List Str
  | 0, acc, s => [acc.reverse ++ s]
  | _ + 1, acc, [] => [acc.reverse]
  | f + 1, acc, c :: r =>
    if c = '\n' then
      match blankTail r with
      | some r2 => acc.reverse :: splitBlankF f [] r2
      | none => splitBlankF f (c :: acc) r
    else splitBlankF f (c :: acc) r

/-- `re.split(r'\n\s*\n', content)`: the paragraphs of a document. -/
def splitBlank (s : Str) : List Str := splitBlankF (s.length + 1) [] s

/-- Fueled core of `re.sub(r'^>\s*', '', text, flags=re.MULTILINE)`:
at each line start a `>` and the following (greedy, possibly
newline-crossing) whitespace run are removed. -/
def stripBqF : Nat → Bool → Str → Str
  | 0, _, s => s
  | _ + 1, _, [] => []
  | f + 1, atLS, c :: r =>
    if atLS ∧ c = '>' then
      let w := r.takeWhile isWs
      stripBqF f (w.getLast? = some '\n') (r.drop w.length)
    else c :: stripBqF f (c = '\n') r

/-- `re.sub(r'^>\s*', '', text, flags=re.MULTILINE)`. -/
def stripBq (s : Str) : Str := stripBqF (s.length + 1) true s

/-- Lazy search for the body of `\*\*(.*?)\*\*` after an opening `**`:
the shortest newline-free run followed by a closing `**`.  Returns the
body and the rest after the closing marker. -/
def findBold : Str → Option (Str × Str)
  | [] => none
  | '*' :: '*' :: r => some ([], r)
  | '\n' :: _ => none
  | c :: r =>
    match findBold r with
    | some (cnt, rest) => some (c :: cnt, rest)
    | none => none

/-- Fueled core of `re.sub(r'\*\*(.*?)\*\*', r'\1', text)`. -/
def unboldF : Nat → Str → Str
  | 0, s => s
  | _ + 1, [] => []
  | f + 1, '*' :: '*' :: r =>
    match findBold r with
    | some (cnt, rest) => cnt ++ unboldF f rest
    | none => '*' :: unboldF f ('*' :: r)
  | f + 1, c :: r => c :: unboldF f r

/-- `re.sub(r'\*\*(.*?)\*\*', r'\1', text)`. -/
def unbold (s : Str) : Str := unboldF (s.length + 1) s

/-- Fueled core of `re.sub(r'\[([^\]]+)\]\([^\)]+\)', r'\1', text)`:
markdown links are replaced by their link text. -/
def unlinkF : Nat → Str → Str
  | 0, s => s
  | _ + 1, [] => []
  | f + 1, '[' :: r =>
    let txt := r.takeWhile (fun d => decide (d ≠ ']'))
    match txt, r.drop txt.length with
    | _ :: _, ']' :: '(' :: r2 =>
      let url := r2.takeWhile (fun d => decide (d ≠ ')'))
      match url, r2.drop url.length with
      | _ :: _, ')' :: r4 => txt ++ unlinkF f r4
      | _, _ => '[' :: unlinkF f r
    | _, _ => '[' :: unlinkF f r
  | f + 1, c :: r => c :: unlinkF f r

/-- `re.sub(r'\[([^\]]+)\]\([^\)]+\)', r'\1', text)`. -/
def unlink (s : Str) : Str := unlinkF (s.length + 1) s

/-- Fueled core of the inline-code stripper (backtick pattern with a
non-empty body between two backticks, replaced by the body). -/
def uncodeF : Nat → Str → Str
  | 0, s => s
  | _ + 1, [] => []
  | f + 1, c :: r =>
    if c = btick then
      let txt := r.takeWhile (fun d => decide (d ≠ btick))
      match txt, r.drop txt.length with
      | _ :: _, d :: rr =>
        if d = btick then txt ++ uncodeF f rr else c :: uncodeF f r
      | _, _ => c :: uncodeF f r
    else c :: uncodeF f r

/-- The inline-code stripper of `_clean_text`. -/
def uncode (s : Str) : Str := uncodeF (s.length + 1) s

/-- ASCII lowercase of a character (Python lowercasing on the ASCII
letters that occur in the compared literals). -/
def lc (c : Char) : Char := c.toLower

/-- Case-insensitive prefix test against an already-lowercase pattern. -/
def ciPre (pat : Str) (s : Str) : Bool := isPre pat (s.map lc)

/-- The character class `[:\s-]` of the label pattern. -/
def inLabelClass (c : Char) : Bool := c = ':' || c = '-' || isWs c

/-- `re.sub(r'^(Summary|Abstract|Overview)[:\s-]*', '', text,
flags=re.IGNORECASE)`: anchored at the start of the string (no
MULTILINE), so at most one match. -/
def labelStrip (s : Str) : Str :=
  if ciPre ("summary".toList) s then (s.drop 7).dropWhile inLabelClass
  else if ciPre ("abstract".toList) s then (s.drop 8).dropWhile inLabelClass
  else if ciPre ("overview".toList) s then (s.drop 8).dropWhile inLabelClass
  else s

/-- `BrainHandler._clean_text`: strip leading blockquote markers,
un-bold, replace links by their text, strip inline code, strip a leading
Summary/Abstract/Overview label, then strip whitespace. -/
def cleanText (p : Str) : Str :=
  stripStr (labelStrip (uncode (unlink (unbold (stripBq p)))))

/-- ASCII letter. -/
def isAsciiAlpha (c : Char) : Bool :=
  ('a' ≤ c && c ≤ 'z') || ('A' ≤ c && c ≤ 'Z')

/-- CJK ideograph in the range U+4E00 to U+9FFF. -/
def isCJK (c : Char) : Bool := '一' ≤ c && c ≤ '鿿'

/-- Membership in the character class of `_is_valid_sentence` (CJK
ideographs, ASCII letters, and a literal space). -/
def inLetterClass (c : Char) : Bool := isCJK c || c = ' ' || isAsciiAlpha c

/-- Python `text.count(c)` for a single character. -/
def countChar (c : Char) (s : Str) : Nat :=
  (s.filter (fun d => decide (d = c))).length

/-- `BrainHandler._is_valid_sentence`. -/
def isValidSentence (t : Str) : Bool :=
  let s := stripStr t
  if s.length < 15 then false
  else if isPre [btick, btick, btick] s then false
  else if isPre ['#'] s then false
  else if isPre ['!', '['] s then false
  else if countChar ';' s > 3 || countChar obrace s > 2 then false
  else if ¬ s.any inLetterClass then false
  else true

/-- Truthiness of the `exclude_text` argument (`if exclude_text and ...`):
`None` and the empty string are falsy. -/
def exTruthy : Option Str → Bool
  | none => false
  | some e => decide (e ≠ [])

/-- The inner loop of `_smart_extract` over the paragraphs of one
document. -/
def extractFromParas (ex : Option Str) : List Str → Option Str
  | [] => none
  | p :: ps =>
    let cleaned := cleanText p
    if isValidSentence cleaned then
      let ft := stripStr (strReplace ['\n'] [' '] cleaned)
      if exTruthy ex = true ∧ ft = ex.getD [] then extractFromParas ex ps
      else some ft
    else extractFromParas ex ps

/-- The outer loop of `_smart_extract` over the content list; falsy
(empty) contents are skipped. -/
def extractFromContents (ex : Option Str) : List Str → Option Str
  | [] => none
  | c :: cs =>
    if c = [] then extractFromContents ex cs
    else
      match extractFromParas ex (splitBlank c) with
      | some r => some r
      | none => extractFromContents ex cs

/-- The fallback sentinel of `_smart_extract`. -/
def sentinel : Str := "See content below.".toList

/-- `BrainHandler._smart_extract`. -/
def smartExtract (contents : List Str) (ex : Option Str) : Str :=
  (extractFromContents ex contents).getD sentinel

/-- Declarative paragraph filter following the specification's words:
the cleaned paragraph must pass validity and, when an exclude text is
given, its newline-flattened form must differ from it; the flattened
form is returned. -/
def passes (ex : Option Str) (p : Str) : Option Str :=
  let cleaned := cleanText p
  if isValidSentence cleaned then
    let ft := stripStr (strReplace ['\n'] [' '] cleaned)
    match ex with
    | some e => if ft = e then none else some ft
    | none => some ft
  else none

/-- All candidate paragraphs of a content list, in priority order. -/
def allParas (contents : List Str) : List Str :=
  (contents.map splitBlank).flatten

/-- Declarative restatement of `_smart_extract` from the specification:
the first qualifying paragraph over all candidates, else the sentinel. -/
def smartExtractSpec (contents : List Str) (ex : Option Str) : Str :=
  ((allParas contents).findSome? (passes ex)).getD sentinel

/-! ## State store (`SyncState`) -/

/-- The persisted mapping from session identifier to last-processed
modification time, in insertion order (a Python dict).  Modification
times are modelled as integers; only their ordering matters. -/
abbrev StateMap := List (Str × Int)

/-- `self.state.get(hash_id, 0)`. -/
def stGet : StateMap → Str → Int
  | [], _ => 0
  | (k, v) :: r, id => if k = id then v else stGet r id

/-- `SyncState.should_process`. -/
def shouldProcess (st : StateMap) (id : Str) (mtime : Int) : Bool :=
  decide (stGet st id < mtime)

/-- `SyncState.update` (the `save` to disk is an external effect that
does not alter the mapping). -/
def stUpdate : StateMap → Str → Int → StateMap
  | [], id, m => [(id, m)]
  | (k, v) :: r, id, m =>
    if k = id then (k, m) :: r else (k, v) :: stUpdate r id m

/-! ## File discovery and grouping (`convert_hash_folder`, step 1) -/

/-- A regular file of a session directory, as the converter observes it:
name, byte size, the text that `_read_file` returns (read failures are
already the empty string), and the formatted creation date of its
`st_ctime`. -/
structure SrcFile where
  name : Str
  size : Nat
  content : Str
  cdate : Str
deriving DecidableEq

/-- `re.match(r'^(.+?)\.md', name)`: the lazy group takes the shortest
non-empty prefix that is followed by `.md`, i.e. the text before the
first occurrence of `.md` at position at least 1. -/
def mdBaseGo (acc : Str) : Str → Option Str
  | [] => none
  | c :: r =>
    if acc ≠ [] ∧ isPre ".md".toList (c :: r) = true then some acc.reverse
    else mdBaseGo (c :: acc) r

/-- The group key (base name) of a file name, when the name matches the
`.md` pattern. -/
def mdBase (name : Str) : Option Str := mdBaseGo [] name

/-- Append a file to its group, keeping first-appearance key order and
per-group insertion order (a Python dict of lists). -/
def addGroup (k : Str) (f : SrcFile) : List (Str × List SrcFile) → List (Str × List SrcFile)
  | [] => [(k, [f])]
  | (k2, fs) :: r =>
    if k2 = k then (k2, fs ++ [f]) :: r else (k2, fs) :: addGroup k f r

/-- `file_groups`: files whose names match the `.md` pattern, grouped by
base name in directory-iteration order. -/
def groupFiles (files : List SrcFile) : List (Str × List SrcFile) :=
  files.foldl
    (fun gs f =>
      match mdBase f.name with
      | some b => addGroup b f gs
      | none => gs) []

/-- Python `max(paths, key=lambda p: p.stat().st_size)`: keeps the first
element, replacing it only on a strictly larger size. -/
def pickBest : SrcFile → List SrcFile → SrcFile
  | best, [] => best
  | best, f :: r => pickBest (if best.size < f.size then f else best) r

/-- The representative of a group, when the group is non-empty. -/
def bestOf : List SrcFile → Option SrcFile
  | [] => none
  | f :: r => some (pickBest f r)

/-- `best_files_map`: one representative per group, largest size first
encountered winning ties. -/
def bestFilesMap (files : List SrcFile) : List (Str × SrcFile) :=
  (groupFiles files).filterMap fun p => (bestOf p.2).map fun f => (p.1, f)

/-- `contents`: the text of each representative. -/
def contentsOf (files : List SrcFile) : List (Str × Str) :=
  (bestFilesMap files).map fun p => (p.1, p.2.content)

/-- `contents.get(key, "")`. -/
def getC (files : List SrcFile) (k : Str) : Str :=
  (((contentsOf files).find? fun p => decide (p.1 = k)).map (·.2)).getD []

/-- Lexicographic comparison of strings by code point (Python `str`
ordering used by `sorted`). -/
def strLe : Str → Str → Bool
  | [], _ => true
  | _ :: _, [] => false
  | x :: xs, y :: ys => if x = y then strLe xs ys else decide (x < y)

/-- Stable insertion into a sorted list. -/
def insertLe (x : Str) : List Str → List Str
  | [] => [x]
  | y :: r => if strLe x y then x :: y :: r else y :: insertLe x r

/-- Python `sorted` on a list of distinct strings. -/
def sortLe (l : List Str) : List Str := l.foldr insertLe []

/-- `other_keys`: the non-special base names, sorted. -/
def otherKeys (files : List SrcFile) : List Str :=
  sortLe (((contentsOf files).map (·.1)).filter fun k =>
    decide (¬ (k = "walkthrough".toList ∨ k = "implementation_plan".toList ∨
               k = "task".toList)))

/-- `last_other_content`. -/
def lastOther (files : List SrcFile) : Str :=
  match (otherKeys files).getLast? with
  | some k => getC files k
  | none => []

/-! ## Metadata extraction (`convert_hash_folder`, step 3) -/

/-- `overview_text`: walkthrough, then implementation plan, then task. -/
def overviewOf (files : List SrcFile) : Str :=
  smartExtract [getC files "walkthrough".toList,
                getC files "implementation_plan".toList,
                getC files "task".toList] none

/-- `abstract_text`: implementation plan, then task, then the last other
artifact, excluding the overview. -/
def abstractOf (files : List SrcFile) : Str :=
  smartExtract [getC files "implementation_plan".toList,
                getC files "task".toList,
                lastOther files] (some (overviewOf files))

/-- The candidate paragraphs of the abstract extraction, in priority
order (used to state the abstract-exclusion claim). -/
def abstractCandidates (files : List SrcFile) : List Str :=
  allParas [getC files "implementation_plan".toList,
            getC files "task".toList,
            lastOther files]

/-! ## Content assembly (`convert_hash_folder`, step 4) -/

/-- Python `str.title()` restricted to ASCII letters: a word is a
maximal run of letters; its first letter is uppercased and the rest
lowercased. -/
def titleCaseGo (prevAlpha : Bool) : Str → Str
  | [] => []
  | c :: r =>
    (if isAsciiAlpha c then (if prevAlpha then c.toLower else c.toUpper) else c)
      :: titleCaseGo (isAsciiAlpha c) r

/-- `key.replace("_", " ").title()`: the section title of an "other"
artifact. -/
def sectionTitle (k : Str) : Str :=
  titleCaseGo false (strReplace ['_'] [' '] k)

/-- `full_raw_content`: the assembled content buffer, joined with
newlines: implementation plan, task list, the other artifacts in sorted
order, then the walkthrough. -/
def buildFull (files : List SrcFile) : Str :=
  let impl := getC files "implementation_plan".toList
  let task := getC files "task".toList
  let walk := getC files "walkthrough".toList
  List.intercalate ['\n']
    ((if impl ≠ [] then ["\n### Implementation Plan\n".toList, impl] else []) ++
     (if task ≠ [] then ["\n### Task List\n".toList, task] else []) ++
     ((otherKeys files).map fun k =>
        ["\n### ".toList ++ sectionTitle k ++ ['\n'], getC files k]).flatten ++
     (if walk ≠ [] then ["\n### Walkthrough\n".toList, walk] else []))

/-! ## Title extraction (`re.search(r'^#\s+(.+)$', ..., re.MULTILINE)`) -/

/-- The largest index `k` with `1 ≤ k < w.length` whose character is not
a newline: the backtracking of the greedy `\s+` when the string ends in
the whitespace run. -/
def lastNonNl (w : Str) : Option Nat :=
  ((List.range w.length).filter fun k =>
    decide (1 ≤ k) && decide (w.getD k ' ' ≠ '\n')).getLast?

/-- Attempt to complete `\s+(.+)$` after a `#` at a line start: `\s+` is
greedy, `(.+)` matches at least one non-newline character, and `$`
matches before a newline or at the end.  Returns the rest of the match
(group 0 without the leading `#`) and group 1. -/
def tryHash (r : Str) : Option (Str × Str) :=
  let w := r.takeWhile isWs
  if w = [] then none
  else
    match r.drop w.length with
    | [] =>
      match lastNonNl w with
      | some k =>
        let g1 := (w.drop k).takeWhile fun d => decide (d ≠ '\n')
        some (w.take k ++ g1, g1)
      | none => none
    | c :: rest =>
      let g1 := (c :: rest).takeWhile fun d => decide (d ≠ '\n')
      some (w ++ g1, g1)

/-- Scan for the leftmost line-start `#` where the rest of the pattern
matches. -/
def titleGo (atLS : Bool) : Str → Option (Str × Str)
  | [] => none
  | c :: r =>
    if atLS ∧ c = '#' then
      match tryHash r with
      | some (g0t, g1) => some ('#' :: g0t, g1)
      | none => titleGo (c = '\n') r
    else titleGo (c = '\n') r

/-- `re.search(r'^#\s+(.+)$', full, re.MULTILINE)`: the whole matched
text (group 0) and the heading text (group 1). -/
def findTitle (full : Str) : Option (Str × Str) := titleGo true full

/-- The extracted title: the first heading's text, stripped; otherwise
the default `Note-` plus the first eight characters of the session id. -/
def titleOf (hashId full : Str) : Str :=
  match findTitle full with
  | some (_, g1) => stripStr g1
  | none => "Note-".toList ++ hashId.take 8

/-- The buffer after title extraction: `str.replace` removes every
occurrence of the matched heading text. -/
def fullAfter (full : Str) : Str :=
  match findTitle full with
  | some (g0, _) => strReplace g0 [] full
  | none => full

/-- Hexadecimal digit. -/
def isHexDigit (c : Char) : Bool :=
  ('0' ≤ c && c ≤ '9') || ('a' ≤ c && c ≤ 'f') || ('A' ≤ c && c ≤ 'F')

/-- `re.match(r'^Note[\s-][0-9a-fA-F]+.*', title, re.IGNORECASE)`:
`Note` case-insensitively, one whitespace-or-hyphen, at least one hex
digit, anything after. -/
def notePat (s : Str) : Bool :=
  decide (6 ≤ s.length) &&
  decide ((s.take 4).map lc = "note".toList) &&
  (isWs (s.getD 4 ' ') || decide (s.getD 4 ' ' = '-')) &&
  isHexDigit (s.getD 5 ' ')

/-- The claim's reading of the rejected shape: `Note`, one space or
hyphen, then a hex digit (case-insensitive). -/
def claimNoteShape (s : Str) : Bool :=
  decide (6 ≤ s.length) &&
  decide ((s.take 4).map lc = "note".toList) &&
  (decide (s.getD 4 ' ' = ' ') || decide (s.getD 4 ' ' = '-')) &&
  isHexDigit (s.getD 5 ' ')

/-! ## Post-processing (`convert_hash_folder`, step 6) -/

/-- Split a string on `/`. -/
def splitSlash : Str → List Str
  | [] => [[]]
  | c :: r =>
    if c = '/' then [] :: splitSlash r
    else
      match splitSlash r with
      | [] => [[c]]
      | p :: ps => (c :: p) :: ps

/-- `Path(src).name`: the last path component, with empty components and
single dots collapsed away (POSIX pure-path semantics for the path
shapes the converter can meet). -/
def pathName (s : Str) : Str :=
  (((splitSlash s).filter fun p => decide (p ≠ [] ∧ p ≠ ['.'])).getLast?).getD []

/-- The external filesystem and copier as the image relocation sees
them: `exists p` is `(source_dir / p).exists()` for the path text `p`,
and `copyOk p` tells whether `shutil.copy2` from that source succeeds
(its failure is swallowed and leaves the reference unchanged). -/
structure FsOracle where
  exists2 : Str → Bool
  copyOk : Str → Bool

/-- The `replace_img` callback of `_process_images` on one matched image
reference `![alt](src)`. -/
def replaceImg (fs : FsOracle) (alt src : Str) : Str :=
  let orig := "![".toList ++ alt ++ "](".toList ++ src ++ [')']
  if isPre "http".toList src || isPre "https".toList src then orig
  else
    let imgName := pathName src
    if fs.exists2 src then
      if fs.copyOk src then "![".toList ++ alt ++ "](./src/".toList ++ imgName ++ [')']
      else orig
    else if fs.exists2 imgName then
      if fs.copyOk imgName then "![".toList ++ alt ++ "](./src/".toList ++ imgName ++ [')']
      else orig
    else orig

/-- Fueled core of `re.sub(r'!\[(.*?)\]\((.*?)\)', replace_img, content)`:
both lazy groups stop at the first closing bracket and cannot cross a
newline. -/
def procImgF (fs : FsOracle) : Nat → Str → Str
  | 0, s => s
  | _ + 1, [] => []
  | f + 1, '!' :: '[' :: r =>
    let alt := r.takeWhile fun d => decide (d ≠ ']' ∧ d ≠ '\n')
    (match r.drop alt.length with
     | ']' :: '(' :: r2 =>
       let src := r2.takeWhile fun d => decide (d ≠ ')' ∧ d ≠ '\n')
       (match r2.drop src.length with
        | ')' :: r4 => replaceImg fs alt src ++ procImgF fs f r4
        | _ => '!' :: procImgF fs f ('[' :: r))
     | _ => '!' :: procImgF fs f ('[' :: r))
  | f + 1, c :: r => c :: procImgF fs f r

/-- `BrainHandler._process_images`. -/
def processImages (fs : FsOracle) (content : Str) : Str :=
  procImgF fs (content.length + 1) content

/-- `BrainHandler._sanitize_content`: one global find-and-remove pass
per ignore string, in list order. -/
def sanitizeContent (ignores : List Str) (text : Str) : Str :=
  ignores.foldl (fun t s => strReplace s [] t) text

/-- `file://` plus `LOCAL_REPO_PATH`. -/
def ghTarget : Str := "file:///home/ubuntu/ming/ming-nfapi-debugger".toList

/-- `GITHUB_REPO_BASE` plus branch plus trailing slash. -/
def ghRepl : Str :=
  "https://github.com/bmw-ece-ntust/ming-nfapi-debugger/blob/oai-debugging-tool-rapp/".toList

/-- `BrainHandler._convert_github_links`. -/
def convertGithubLinks (t : Str) : Str :=
  if hasSub ghTarget t then strReplace ghTarget ghRepl t else t

/-! ## Note rendering and filename (`convert_hash_folder`, steps 10-12) -/

/-- `NOTE_TEMPLATE.format(...)`. -/
def renderNote (title cDate uDate ov ab content : Str) : Str :=
  "# ".toList ++ title ++
  "\n\n**Created:** ".toList ++ cDate ++
  "\n**Last Updated:** ".toList ++ uDate ++
  "\n**Tags:** #Development #Research\n**Status:** ✅ Complete\n\n---\n\n## 📋 Overview\n\n> **Summary:** ".toList ++ ov ++
  "\n\n### Abstract\n\n".toList ++ ab ++
  "\n\n---\n\n## 📝 Content\n\n".toList ++ content ++ ['\n']

/-- The everything-before-the-content of a rendered note. -/
def renderHeader (title cDate uDate ov ab : Str) : Str :=
  "# ".toList ++ title ++
  "\n\n**Created:** ".toList ++ cDate ++
  "\n**Last Updated:** ".toList ++ uDate ++
  "\n**Tags:** #Development #Research\n**Status:** ✅ Complete\n\n---\n\n## 📋 Overview\n\n> **Summary:** ".toList ++ ov ++
  "\n\n### Abstract\n\n".toList ++ ab ++
  "\n\n---\n\n## 📝 Content\n\n".toList

/-- The characters removed by `re.sub(r'[\\/*?:"<>|]', "", ...)`. -/
def isIllegalFn (c : Char) : Bool :=
  c = '\\' || c = '/' || c = '*' || c = '?' || c = ':' || c = '"' ||
  c = '<' || c = '>' || c = '|'

/-- Fueled core of `re.sub(r'-+', '-', s)`: collapse runs of hyphens. -/
def collapseDashF : Nat → Str → Str
  | 0, s => s
  | _ + 1, [] => []
  | f + 1, c :: r =>
    if c = '-' then '-' :: collapseDashF f (r.dropWhile fun d => decide (d = '-'))
    else c :: collapseDashF f r

/-- `re.sub(r'-+', '-', s)`. -/
def collapseDash (s : Str) : Str := collapseDashF (s.length + 1) s

/-- `safe_title`: normalize separators to hyphens, remove characters
illegal in file names, collapse repeated hyphens. -/
def sanitizeTitle (title : Str) : Str :=
  collapseDash ((strReplace [' '] ['-']
    (strReplace ['_'] ['-']
      (strReplace "_-_".toList ['-'] title))).filter
        fun c => !(isIllegalFn c))

/-- The output file name. -/
def noteFilename (title : Str) : Str := sanitizeTitle title ++ ".md".toList

/-! ## The session converter (`convert_hash_folder`) -/

/-- The fixed replacement abstract. -/
def seeDetails : Str := "See details in Content section.".toList

/-- All inputs `convert_hash_folder` reads: the session, the state
store, and the external effects as oracles. -/
structure ConvInput where
  hashId : Str
  dirExists : Bool
  files : List SrcFile
  ignores : List Str
  state : StateMap
  timestamp : Option Int
  fs : FsOracle
  writeOk : Bool
  nowDate : Str

/-- Which exit `convert_hash_folder` took. -/
inductive ConvOutcome
  | noDir
  | rejectedTitle
  | rejectedShort
  | writeFailed
  | written
deriving DecidableEq

/-- The observable result of `convert_hash_folder`: the return value,
the state store afterwards, and the data of the note (when the run got
far enough to produce it). -/
structure ConvResult where
  result : Bool
  state2 : StateMap
  outcome : ConvOutcome
  title : Str
  overviewRaw : Str
  abstractRaw : Str
  overviewFinal : Str
  abstractFinal : Str
  fullRaw : Str
  fullAfterTitle : Str
  sanitized : Str
  processed : Str
  filename : Str
  note : Option Str

/-- `if timestamp: self.state_manager.update(hash_id, timestamp)`:
record only a truthy (non-zero, supplied) timestamp. -/
def recordTs (inp : ConvInput) : StateMap :=
  match inp.timestamp with
  | some t => if t = 0 then inp.state else stUpdate inp.state inp.hashId t
  | none => inp.state

/-- `best_files_map.get("walkthrough") or best_files_map.get("implementation_plan")`. -/
def primaryFile (files : List SrcFile) : Option SrcFile :=
  match ((bestFilesMap files).find? fun p => decide (p.1 = "walkthrough".toList)).map (·.2) with
  | some f => some f
  | none => ((bestFilesMap files).find? fun p =>
      decide (p.1 = "implementation_plan".toList)).map (·.2)

/-- The formatted creation date: the primary file's, else today. -/
def cDateOf (inp : ConvInput) : Str :=
  ((primaryFile inp.files).map (·.cdate)).getD inp.nowDate

/-- The extracted title of a session. -/
def titleIn (inp : ConvInput) : Str := titleOf inp.hashId (buildFull inp.files)

/-- The assembled buffer after title-line removal. -/
def fullIn (inp : ConvInput) : Str := fullAfter (buildFull inp.files)

/-- `processed_content` after image relocation and the ignore-list pass. -/
def sanitizedOf (inp : ConvInput) : Str :=
  sanitizeContent inp.ignores (processImages inp.fs (fullIn inp))

/-- `processed_content` after link rewriting, as rendered into the note. -/
def processedOf (inp : ConvInput) : Str := convertGithubLinks (sanitizedOf inp)

/-- The overview after the sentinel-to-title replacement. -/
def ovFinalOf (inp : ConvInput) : Str :=
  if overviewOf inp.files = sentinel then titleIn inp else overviewOf inp.files

/-- The abstract after the equal-to-overview replacement. -/
def abFinalOf (inp : ConvInput) : Str :=
  if abstractOf inp.files = ovFinalOf inp then seeDetails
  else abstractOf inp.files

/-- `final_note`. -/
def noteOf (inp : ConvInput) : Str :=
  renderNote (titleIn inp) (cDateOf inp) inp.nowDate (ovFinalOf inp)
    (abFinalOf inp) (processedOf inp)

/-- `BrainHandler.convert_hash_folder`. -/
def convert (inp : ConvInput) : ConvResult :=
  if inp.dirExists = false then
    ⟨false, inp.state, .noDir, [], [], [], [], [], [], [], [], [], [], none⟩
  else if notePat (titleIn inp) then
    ⟨false, recordTs inp, .rejectedTitle, titleIn inp, overviewOf inp.files,
     abstractOf inp.files, [], [], buildFull inp.files, fullIn inp,
     [], [], [], none⟩
  else if (stripStr (fullIn inp)).length < 50 then
    ⟨false, recordTs inp, .rejectedShort, titleIn inp, overviewOf inp.files,
     abstractOf inp.files, [], [], buildFull inp.files, fullIn inp,
     [], [], [], none⟩
  else if inp.writeOk then
    ⟨true, recordTs inp, .written, titleIn inp, overviewOf inp.files,
     abstractOf inp.files, ovFinalOf inp, abFinalOf inp, buildFull inp.files,
     fullIn inp, sanitizedOf inp, processedOf inp,
     noteFilename (titleIn inp), some (noteOf inp)⟩
  else
    ⟨false, inp.state, .writeFailed, titleIn inp, overviewOf inp.files,
     abstractOf inp.files, ovFinalOf inp, abFinalOf inp, buildFull inp.files,
     fullIn inp, sanitizedOf inp, processedOf inp,
     noteFilename (titleIn inp), none⟩

/-! ## Concrete sessions used as test inputs -/

/-- A filesystem oracle for sessions without images. -/
def noFsOracle : FsOracle := ⟨fun _ => false, fun _ => false⟩

/-- The 500-byte `a.md` of the grouping example. -/
def exA : SrcFile := ⟨"a.md".toList, 500, [], []⟩

/-- The 900-byte `a.md.resolved` of the grouping example. -/
def exR : SrcFile := ⟨"a.md.resolved".toList, 900, [], []⟩

/-- A session whose overview paragraph contains an ignored substring. -/
def filesLeak : List SrcFile :=
  [⟨"walkthrough.md".toList, 100,
    "# Leak Title\n\nThe overview SECRETX paragraph is long enough.\n\nExtra body filler text to pass the fifty character requirement easily.".toList,
    "2026-01-01".toList⟩]

/-- Conversion input for `filesLeak`, with `SECRETX` on the ignore list. -/
def inpLeak : ConvInput :=
  ⟨"abc123zz".toList, true, filesLeak, ["SECRETX".toList], [], some 5,
   noFsOracle, true, "2026-10-12".toList⟩

/-- A session whose walkthrough contains the same level-1 heading line
twice. -/
def filesDup : List SrcFile :=
  [⟨"walkthrough.md".toList, 90,
    "# Dup Title\n\npara one is long enough yes.\n\n# Dup Title\n\nmore filler text here ok.".toList,
    "2026-01-01".toList⟩]

/-- Conversion input for `filesDup`. -/
def inpDup : ConvInput :=
  ⟨"abc123zz".toList, true, filesDup, [], [], some 5,
   noFsOracle, true, "2026-10-12".toList⟩

/-- A session whose implementation plan is exactly the paragraph already
chosen as the overview. -/
def filesTwin : List SrcFile :=
  [⟨"walkthrough.md".toList, 70,
    "# My Walkthrough Title\n\nThis is the overview paragraph text, quite long indeed.".toList,
    "2026-01-01".toList⟩,
   ⟨"implementation_plan.md".toList, 55,
    "This is the overview paragraph text, quite long indeed.".toList,
    "2026-01-02".toList⟩]

/-- Conversion input for `filesTwin`. -/
def inpTwin : ConvInput :=
  ⟨"abc123zz".toList, true, filesTwin, [], [], some 5,
   noFsOracle, true, "2026-10-12".toList⟩

/-- A session whose genuine heading is `Note-Based Workflow`. -/
def filesNotePfx : List SrcFile :=
  [⟨"walkthrough.md".toList, 70,
    "# Note-Based Workflow\n\nSome genuinely long paragraph of text goes here.".toList,
    "2026-01-01".toList⟩]

/-- Conversion input for `filesNotePfx`. -/
def inpNotePfx : ConvInput :=
  ⟨"sess".toList, true, filesNotePfx, [], [], some 5,
   noFsOracle, true, "2026-10-12".toList⟩

/-- A session whose heading consists only of characters illegal in file
names. -/
def filesQmark : List SrcFile :=
  [⟨"walkthrough.md".toList, 80,
    "# ?:*\n\nLong filler paragraph to satisfy the fifty character minimum requirement.".toList,
    "2026-01-01".toList⟩]

/-- Conversion input for `filesQmark`. -/
def inpQmark : ConvInput :=
  ⟨"sess".toList, true, filesQmark, [], [], some 5,
   noFsOracle, true, "2026-10-12".toList⟩

/-- A session used with the single-character ignore string `Z`. -/
def filesZebra : List SrcFile :=
  [⟨"walkthrough.md".toList, 60,
    "# Zebra Title\n\nThe Zebra paragraph is fairly long here with Z letters.".toList,
    "2026-01-01".toList⟩]

/-- Conversion input for `filesZebra` with a succeeding write. -/
def inpZebra : ConvInput :=
  ⟨"sess".toList, true, filesZebra, ["Z".toList], [], some 5,
   noFsOracle, true, "2026-10-12".toList⟩

/-- Conversion input for `filesZebra` with a failing write. -/
def inpZebraNoWrite : ConvInput :=
  ⟨"sess".toList, true, filesZebra, ["Z".toList], [], some 5,
   noFsOracle, false, "2026-10-12".toList⟩

/-- Walkthrough content for the extraction-precedence witness. -/
def walkW : Str :=
  "The walkthrough first paragraph is valid here.\n\nA second walkthrough paragraph.".toList

/-- Implementation-plan content, also with a valid first paragraph. -/
def implW : Str :=
  "The implementation plan paragraph is also valid.".toList

/-- The claim's letter test for `_is_valid_sentence`: an ASCII letter or
a CJK ideograph. -/
def hasLetter (t : Str) : Bool := t.any fun c => isAsciiAlpha c || isCJK c

/-- `_is_valid_sentence` restated declaratively with the amended letter
class (which also accepts a plain space character). -/
def isValidSentenceSpec (t : Str) : Bool :=
  let s := stripStr t
  !(decide (s.length < 15) || isPre [btick, btick, btick] s ||
    isPre ['#'] s || isPre ['!', '['] s ||
    decide (countChar ';' s > 3) || decide (countChar obrace s > 2) ||
    !(s.any inLetterClass))

/-! # Theorems -/

theorem stGet_absent (st : StateMap) (id : Str)
    (h : ∀ p ∈ st, p.1 ≠ id) : stGet st id = 0 := by
  induction st with
  | nil => rfl
  | cons kv r ih =>
    obtain ⟨k, v⟩ := kv
    rw [stGet]
    rw [if_neg (h (k, v) (List.mem_cons_self _ _))]
    exact ih fun p hp => h p (List.mem_cons_of_mem _ hp)

theorem stGet_stUpdate_same (st : StateMap) (id : Str) (m : Int) :
    stGet (stUpdate st id m) id = m := by
  induction st with
  | nil => simp [stUpdate, stGet]
  | cons kv r ih =>
    obtain ⟨k, v⟩ := kv
    by_cases h : k = id
    · simp [stUpdate, stGet, h]
    · simp [stUpdate, stGet, h, ih]

/-- C1: `shouldProcess` is true exactly when the time is strictly above
the stored value (default 0), and after `update` has recorded a time the
same time no longer triggers processing. -/
theorem C1_state_contract :
    (∀ (st : StateMap) (id : Str) (m : Int),
      shouldProcess st id m = true ↔ stGet st id < m) ∧
    (∀ (st : StateMap) (id : Str) (m : Int),
      (∀ p ∈ st, p.1 ≠ id) → (shouldProcess st id m = true ↔ 0 < m)) ∧
    (∀ (st : StateMap) (id : Str) (m : Int),
      shouldProcess (stUpdate st id m) id m = false) := by
  refine ⟨?_, ?_, ?_⟩
  · intro st id m
    simp [shouldProcess]
  · intro st id m habs
    rw [shouldProcess, stGet_absent st id habs]
    simp
  · intro st id m
    simp [shouldProcess, stGet_stUpdate_same]

/-- C1 witness: a store holding only another session treats `sess` as
absent, so any positive time triggers processing. -/
theorem C1_state_contract_witness :
    (∀ p ∈ ([("other".toList, (3 : Int))] : StateMap), p.1 ≠ "sess".toList) ∧
    (shouldProcess [("other".toList, (3 : Int))] "sess".toList 7 = true ↔
      (0 : Int) < 7) :=
  ⟨by decide, C1_state_contract.2.1 [("other".toList, (3 : Int))]
    "sess".toList 7 (by decide)⟩

/-- C7 counterexample: a sentence of digits and a space contains no
letters at all (no ASCII letter, no CJK ideograph), yet
`_is_valid_sentence` accepts it, because the character class of its
letter test contains a literal space. -/
theorem C7_counterexample :
    hasLetter "12345678 9012345".toList = false ∧
    isValidSentence "12345678 9012345".toList = true := by
  constructor
  · decide
  · decide

/-- C7 amended: `_is_valid_sentence` rejects exactly the stripped texts
that are shorter than 15 characters, start with a code fence, heading,
or image marker, contain more than 3 semicolons or more than 2 open
braces, or contain no character of its letter class, where that class
consists of the ASCII letters, the CJK ideographs U+4E00 to U+9FFF, and
the space character. -/
theorem C7_amended (t : Str) : isValidSentence t = isValidSentenceSpec t := by
  simp only [isValidSentence, isValidSentenceSpec]
  split_ifs with h1 h2 h3 h4 h5 h6 <;> simp_all
  intro a b
  exfalso
  omega

/-- C10: sanitizing the non-empty title `?:*` yields an empty base name,
and a session with that heading is written to the hidden file `.md`. -/
theorem C10_empty_filename :
    "?:*".toList ≠ [] ∧
    sanitizeTitle "?:*".toList = [] ∧
    noteFilename "?:*".toList = ".md".toList ∧
    (convert inpQmark).outcome = .written ∧
    (convert inpQmark).title = "?:*".toList ∧
    (convert inpQmark).filename = ".md".toList := by
  refine ⟨by decide, by decide, by decide, by decide, by decide, by decide⟩

/-- C3 counterexample: `SECRETX` is on the ignore list, the conversion
succeeds, and the written note still contains `SECRETX` (through the
unsanitized overview header). -/
theorem C3_counterexample :
    "SECRETX".toList ∈ inpLeak.ignores ∧
    (convert inpLeak).outcome = .written ∧
    hasSub "SECRETX".toList ((convert inpLeak).note.getD []) = true := by
  refine ⟨by decide, by decide, by decide⟩

/-- C5 counterexample: the matched heading line `# Dup Title` occurs
twice in the assembled buffer, and after title extraction no occurrence
remains: the later identical occurrence is removed as well. -/
theorem C5_counterexample :
    (convert inpDup).title = "Dup Title".toList ∧
    countOcc "# Dup Title".toList (buildFull filesDup) = 2 ∧
    hasSub "# Dup Title".toList (convert inpDup).fullAfterTitle = false := by
  refine ⟨by decide, by decide, by decide⟩

/-- C4 counterexample: the only valid paragraph among the abstract
candidates equals the chosen overview, yet the abstract written into the
note is the sentinel `See content below.`, not the fixed
`See details in Content section.` fallback. -/
theorem C4_counterexample :
    (∀ p ∈ abstractCandidates filesTwin,
      passes none p = none ∨ passes none p = some (overviewOf filesTwin)) ∧
    (convert inpTwin).outcome = .written ∧
    (convert inpTwin).abstractFinal = sentinel ∧
    (convert inpTwin).abstractFinal ≠ seeDetails := by
  refine ⟨by decide, by decide, by decide, by decide⟩

theorem dropWhile_head_false {p : Char → Bool} {l t : Str} {x : Char}
    (h : l.dropWhile p = x :: t) : p x = false := by
  induction l with
  | nil => simp at h
  | cons c r ih =>
    rw [List.dropWhile_cons] at h
    by_cases hc : p c
    · exact ih (by simpa [hc] using h)
    · obtain ⟨rfl, -⟩ : c = x ∧ r = t := by
        simpa [hc] using h
      simpa using hc

theorem dropWhile_dropWhile (p : Char → Bool) (l : Str) :
    (l.dropWhile p).dropWhile p = l.dropWhile p := by
  cases h : l.dropWhile p with
  | nil => simp
  | cons x t => rw [List.dropWhile_cons, dropWhile_head_false h]; simp

theorem dropWhile_append_last {p : Char → Bool} {x : Char} (hx : p x = false)
    (u : Str) : (u ++ [x]).dropWhile p = u.dropWhile p ++ [x] := by
  induction u with
  | nil => simp [List.dropWhile_cons, hx]
  | cons c r ih =>
    by_cases hc : p c <;> simp [List.dropWhile_cons, hc, ih]

theorem stripStr_dropWhile (l : Str) :
    (stripStr l).dropWhile isWs = stripStr l := by
  unfold stripStr
  cases h : l.dropWhile isWs with
  | nil => simp
  | cons x t =>
    have hx : isWs x = false := dropWhile_head_false h
    rw [show (x :: t).reverse = t.reverse ++ [x] by simp,
        dropWhile_append_last hx]
    rw [List.reverse_append]
    simp only [List.reverse_singleton, List.singleton_append]
    rw [List.dropWhile_cons, hx]
    simp

theorem stripStr_reverse_dropWhile (l : Str) :
    (stripStr l).reverse.dropWhile isWs = (stripStr l).reverse := by
  unfold stripStr
  rw [List.reverse_reverse]
  exact dropWhile_dropWhile _ _

theorem stripStr_idem (l : Str) : stripStr (stripStr l) = stripStr l := by
  conv_lhs => rw [stripStr, stripStr_dropWhile, stripStr_reverse_dropWhile]
  simp

/-- The pointwise effect of `replace('\n', ' ')`. -/
def nlToSp (c : Char) : Char := if c = '\n' then ' ' else c

theorem isWs_nlToSp (c : Char) : isWs (nlToSp c) = isWs c := by
  by_cases h : c = '\n'
  · subst h; decide
  · simp [nlToSp, h]

theorem dropWhile_isWs_map (l : Str) :
    (l.map nlToSp).dropWhile isWs = (l.dropWhile isWs).map nlToSp := by
  induction l with
  | nil => simp
  | cons c r ih =>
    by_cases hc : isWs c <;>
      simp [List.dropWhile_cons, isWs_nlToSp, hc, ih]

theorem stripStr_map_nl (l : Str) :
    stripStr (l.map nlToSp) = (stripStr l).map nlToSp := by
  unfold stripStr
  rw [dropWhile_isWs_map, ← List.map_reverse, dropWhile_isWs_map,
    ← List.map_reverse]

theorem isPre_iff {p s : Str} : isPre p s = true ↔ ∃ t, s = p ++ t := by
  induction p generalizing s with
  | nil => simp [isPre]
  | cons a as ih =>
    cases s with
    | nil => simp [isPre]
    | cons b bs =>
      simp only [isPre, Bool.and_eq_true, decide_eq_true_eq, ih]
      constructor
      · rintro ⟨rfl, t, rfl⟩; exact ⟨t, rfl⟩
      · rintro ⟨t, ht⟩
        obtain ⟨rfl, rfl⟩ : a = b ∧ bs = as ++ t := by
          constructor <;> [exact (List.cons.injEq .. ▸ ht).1.symm;
            exact (List.cons.injEq .. ▸ ht).2]
        exact ⟨rfl, t, rfl⟩

theorem strReplaceF_single (a b : Char) :
    ∀ (f : Nat) (s : Str), s.length < f →
      strReplaceF f [a] [b] s = s.map fun c => if c = a then b else c := by
  intro f
  induction f with
  | zero => intro s h; omega
  | succ f ih =>
    intro s hs
    cases s with
    | nil => simp [strReplaceF, isPre]
    | cons c r =>
      have hr : r.length < f := by
        simp only [List.length_cons] at hs
        omega
      by_cases hc : c = a
      · subst hc
        have hpre : ([c] : Str) ≠ [] ∧ isPre [c] (c :: r) = true := by
          refine ⟨by simp, ?_⟩
          simp [isPre]
        rw [strReplaceF, if_pos hpre]
        simp only [List.length_cons, List.length_nil, List.drop_succ_cons,
          List.drop_zero]
        rw [ih r hr]
        simp
      · have hpre : ¬ (([a] : Str) ≠ [] ∧ isPre [a] (c :: r) = true) := by
          simp [isPre]
          intro h
          exact absurd h.symm hc
        rw [strReplaceF, if_neg hpre]
        rw [ih r hr]
        simp [hc]

theorem strReplace_single (a b : Char) (s : Str) :
    strReplace [a] [b] s = s.map fun c => if c = a then b else c :=
  strReplaceF_single a b _ s (by omega)

theorem valid_strip_len {t : Str} (h : isValidSentence t = true) :
    ¬ (stripStr t).length < 15 := by
  intro hlt
  rw [isValidSentence] at h
  simp only [hlt, if_true] at h
  cases h

/-- A valid cleaned paragraph flattens to a non-empty text. -/
theorem flat_clean_ne_nil {p : Str}
    (h : isValidSentence (cleanText p) = true) :
    stripStr (strReplace ['\n'] [' '] (cleanText p)) ≠ [] := by
  have hcl : cleanText p = stripStr (labelStrip (uncode (unlink (unbold (stripBq p))))) := rfl
  have hstrip : stripStr (cleanText p) = cleanText p := by
    rw [hcl, stripStr_idem]
  have hlen : 15 ≤ (cleanText p).length := by
    have := valid_strip_len h
    rw [hstrip] at this
    omega
  have hmap : strReplace ['\n'] [' '] (cleanText p)
      = (cleanText p).map nlToSp := by
    rw [strReplace_single]
    rfl
  rw [hmap, stripStr_map_nl, hstrip]
  intro hnil
  have hlen0 : ((cleanText p).map nlToSp).length = 0 := by rw [hnil]; rfl
  rw [List.length_map] at hlen0
  omega

theorem extractFromParas_eq (ex : Option Str) (ps : List Str) :
    extractFromParas ex ps = ps.findSome? (passes ex) := by
  induction ps with
  | nil => rfl
  | cons p ps ih =>
    rw [extractFromParas, List.findSome?_cons]
    by_cases hv : isValidSentence (cleanText p) = true
    · simp only [hv, if_true]
      rw [passes]
      simp only [hv, if_true]
      match ex with
      | none =>
        simp [exTruthy]
      | some e =>
        by_cases he : e = []
        · subst he
          have hne := flat_clean_ne_nil hv
          simp only [exTruthy, ne_eq, decide_not]
          simp [hne]
        · by_cases hft : stripStr (strReplace ['\n'] [' '] (cleanText p)) = e
          · simp [exTruthy, he, hft, ih]
          · simp [exTruthy, he, hft]
    · simp only [Bool.not_eq_true] at hv
      simp only [hv, Bool.false_eq_true, if_false]
      rw [passes]
      simp [hv, ih]

theorem passes_nil (ex : Option Str) : passes ex [] = none := by
  have h : isValidSentence (cleanText []) = false := by decide
  rw [passes]
  simp [h]

theorem splitBlank_nil : splitBlank [] = [[]] := rfl

theorem extractFromContents_eq (ex : Option Str) (cs : List Str) :
    extractFromContents ex cs = (allParas cs).findSome? (passes ex) := by
  induction cs with
  | nil => rfl
  | cons c cs ih =>
    have hcons : allParas (c :: cs) = splitBlank c ++ allParas cs := by
      simp [allParas]
    rw [extractFromContents, hcons, List.findSome?_append]
    by_cases hc : c = []
    · subst hc
      rw [splitBlank_nil]
      simp only [if_true]
      rw [ih]
      rw [List.findSome?_cons, passes_nil]
      simp [List.findSome?_nil]
    · simp only [hc, if_false]
      rw [extractFromParas_eq]
      cases h : (splitBlank c).findSome? (passes ex) with
      | some r => simp [h]
      | none => simp [h, ih]

/-- `_smart_extract` agrees with its declarative restatement. -/
theorem smartExtract_eq (contents : List Str) (ex : Option Str) :
    smartExtract contents ex = smartExtractSpec contents ex := by
  rw [smartExtract, smartExtractSpec, extractFromContents_eq]

/-- C2: `_smart_extract` returns the flattened form of the first
paragraph, in content order and then document order, whose cleaned form
is valid and differs from any given exclude text, and the fixed sentinel
when no paragraph qualifies; in particular a valid first walkthrough
paragraph becomes the overview regardless of the later contents. -/
theorem C2_smart_extract :
    (∀ (contents : List Str) (ex : Option Str),
      smartExtract contents ex = smartExtractSpec contents ex) ∧
    (∀ (w i t p : Str) (ps : List Str) (f : Str),
      splitBlank w = p :: ps → passes none p = some f →
      smartExtract [w, i, t] none = f) := by
  refine ⟨smartExtract_eq, ?_⟩
  intro w i t p ps f hsplit hpass
  have hw : w ≠ [] := by
    intro h
    subst h
    rw [splitBlank_nil] at hsplit
    obtain ⟨rfl, -⟩ : ([] : Str) = p ∧ ([] : List Str) = ps := by
      simpa using hsplit
    rw [passes_nil] at hpass
    cases hpass
  rw [smartExtract_eq, smartExtractSpec]
  have hcand : allParas [w, i, t] = (p :: ps) ++ (splitBlank i ++ (splitBlank t ++ [])) := by
    simp [allParas, hsplit]
  rw [hcand, List.findSome?_append, List.findSome?_cons, hpass]
  rfl

/-- C2 witness: a session where both the walkthrough and the
implementation plan have valid first paragraphs; the overview is the
walkthrough's. -/
theorem C2_smart_extract_witness :
    splitBlank walkW
      = ["The walkthrough first paragraph is valid here.".toList,
         "A second walkthrough paragraph.".toList] ∧
    passes none "The walkthrough first paragraph is valid here.".toList
      = some "The walkthrough first paragraph is valid here.".toList ∧
    passes none implW = some implW ∧
    smartExtract [walkW, implW, []] none
      = "The walkthrough first paragraph is valid here.".toList := by
  refine ⟨by decide, by decide, by decide, ?_⟩
  exact C2_smart_extract.2 walkW implW []
    "The walkthrough first paragraph is valid here.".toList
    ["A second walkthrough paragraph.".toList]
    "The walkthrough first paragraph is valid here.".toList
    (by decide) (by decide)

theorem strReplaceF_succ (f : Nat) (old rep s : Str) :
    strReplaceF (f + 1) old rep s =
      if old ≠ [] ∧ isPre old s = true then
        rep ++ strReplaceF f old rep (s.drop old.length)
      else
        match s with
        | [] => []
        | c :: r => c :: strReplaceF f old rep r := by
  cases s <;> rfl

theorem countOccF_succ (f : Nat) (old s : Str) :
    countOccF (f + 1) old s =
      if old ≠ [] ∧ isPre old s = true then
        1 + countOccF f old (s.drop old.length)
      else
        match s with
        | [] => 0
        | _ :: r => countOccF f old r := by
  cases s <;> rfl

theorem strReplaceF_len (old : Str) (hold : old ≠ []) :
    ∀ (f : Nat) (s : Str), s.length < f →
      (strReplaceF f old [] s).length + old.length * countOccF f old s
        = s.length := by
  intro f
  induction f with
  | zero => intro s h; omega
  | succ f ih =>
    intro s hs
    by_cases hp : old ≠ [] ∧ isPre old s = true
    · obtain ⟨t, rfl⟩ := isPre_iff.1 hp.2
      rw [strReplaceF_succ, if_pos hp, countOccF_succ, if_pos hp, List.drop_left]
      have ht : t.length < f := by
        have h1 : 1 ≤ old.length := by
          cases old with
          | nil => exact absurd rfl hold
          | cons a as => simp
        rw [List.length_append] at hs
        omega
      have := ih t ht
      simp only [List.nil_append, List.length_append]
      rw [Nat.mul_add, Nat.mul_one]
      omega
    · rw [strReplaceF_succ, if_neg hp, countOccF_succ, if_neg hp]
      cases s with
      | nil => simp
      | cons c r =>
        have hr : r.length < f := by
          simp only [List.length_cons] at hs
          omega
        have := ih r hr
        simp only [List.length_cons]
        omega

/-- One `replace(old, "")` pass removes every occurrence its
left-to-right scan counts: the length drops by exactly the pattern
length times the occurrence count. -/
theorem strReplace_len (old s : Str) (hold : old ≠ []) :
    (strReplace old [] s).length + old.length * countOcc old s = s.length :=
  strReplaceF_len old hold _ s (by omega)

theorem mem_strReplaceF (old : Str) :
    ∀ (f : Nat) (s : Str) (c : Char), c ∈ strReplaceF f old [] s → c ∈ s := by
  intro f
  induction f with
  | zero => intro s c h; exact h
  | succ f ih =>
    intro s c h
    by_cases hp : old ≠ [] ∧ isPre old s = true
    · rw [strReplaceF_succ, if_pos hp] at h
      simp only [List.nil_append] at h
      exact List.mem_of_mem_drop (ih _ _ h)
    · rw [strReplaceF_succ, if_neg hp] at h
      cases s with
      | nil => simp at h
      | cons d r =>
        rcases List.mem_cons.1 h with h1 | h1
        · exact h1 ▸ List.mem_cons_self d r
        · exact List.mem_cons_of_mem d (ih _ _ h1)

theorem strReplaceF_del_single (a : Char) :
    ∀ (f : Nat) (s : Str), s.length < f →
      strReplaceF f [a] [] s = s.filter fun c => decide (c ≠ a) := by
  intro f
  induction f with
  | zero => intro s h; omega
  | succ f ih =>
    intro s hs
    cases s with
    | nil => simp [strReplaceF, isPre]
    | cons c r =>
      have hr : r.length < f := by
        simp only [List.length_cons] at hs
        omega
      by_cases hc : c = a
      · subst hc
        have hpre : ([c] : Str) ≠ [] ∧ isPre [c] (c :: r) = true := by
          refine ⟨by simp, by simp [isPre]⟩
        rw [strReplaceF, if_pos hpre]
        simp only [List.length_cons, List.length_nil, List.drop_succ_cons,
          List.drop_zero, List.nil_append]
        rw [ih r hr]
        simp
      · have hpre : ¬ (([a] : Str) ≠ [] ∧ isPre [a] (c :: r) = true) := by
          simp [isPre]
          intro h
          exact absurd h.symm hc
        rw [strReplaceF, if_neg hpre]
        rw [ih r hr]
        simp [hc]

theorem strReplace_del_single (a : Char) (s : Str) :
    strReplace [a] [] s = s.filter fun c => decide (c ≠ a) :=
  strReplaceF_del_single a _ s (by omega)

theorem mem_sanitize (ignores : List Str) :
    ∀ (t : Str) (c : Char), c ∈ sanitizeContent ignores t → c ∈ t := by
  induction ignores with
  | nil => intro t c h; exact h
  | cons s r ih =>
    intro t c h
    have h2 : c ∈ strReplace s [] t := ih _ _ h
    exact mem_strReplaceF s _ _ _ h2

/-- A single-character ignore string is guaranteed absent from the
sanitized text. -/
theorem sanitize_single_absent (ignores : List Str) :
    ∀ (t : Str) (c : Char), [c] ∈ ignores → c ∉ sanitizeContent ignores t := by
  induction ignores with
  | nil => intro t c h; simp at h
  | cons s r ih =>
    intro t c hmem hc
    rcases List.mem_cons.1 hmem with h1 | h1
    · subst h1
      have h2 : c ∈ strReplace [c] [] t := mem_sanitize r _ _ hc
      rw [strReplace_del_single] at h2
      rcases List.mem_filter.1 h2 with ⟨-, h3⟩
      simp at h3
    · exact ih _ _ h1 hc

theorem passes_some_eq (e p : Str) :
    passes (some e) p =
      match passes none p with
      | none => none
      | some ft => if ft = e then none else some ft := by
  rw [passes, passes]
  by_cases hv : isValidSentence (cleanText p) = true
  · simp [hv]
  · simp only [Bool.not_eq_true] at hv
    simp [hv]

theorem pickBest_mem : ∀ (l : List SrcFile) (b : SrcFile), pickBest b l ∈ b :: l := by
  intro l
  induction l with
  | nil => intro b; simp [pickBest]
  | cons f r ih =>
    intro b
    rw [pickBest]
    by_cases h : b.size < f.size
    · simp only [h, if_pos]
      rcases List.mem_cons.1 (ih f) with h1 | h1
      · rw [h1]; simp
      · simp [h1]
    · simp only [h, if_neg, if_false]
      rcases List.mem_cons.1 (ih b) with h1 | h1
      · rw [h1]; simp
      · simp [h1]

theorem pickBest_le : ∀ (l : List SrcFile) (b x : SrcFile),
    x ∈ b :: l → x.size ≤ (pickBest b l).size := by
  intro l
  induction l with
  | nil =>
    intro b x hx
    rcases List.mem_cons.1 hx with h1 | h1
    · rw [h1, pickBest]
    · simp at h1
  | cons f r ih =>
    intro b x hx
    rw [pickBest]
    by_cases h : b.size < f.size <;> simp only [h, if_pos, if_neg, if_false]
    · rcases List.mem_cons.1 hx with h1 | h1
      · calc x.size = b.size := by rw [h1]
          _ ≤ f.size := Nat.le_of_lt h
          _ ≤ (pickBest f r).size := ih f f (List.mem_cons_self f r)
      · exact ih f x h1
    · have hfb : f.size ≤ b.size := Nat.le_of_not_lt h
      rcases List.mem_cons.1 hx with h1 | h1
      · rw [h1]
        exact ih b b (List.mem_cons_self b r)
      · rcases List.mem_cons.1 h1 with h2 | h2
        · calc x.size = f.size := by rw [h2]
            _ ≤ b.size := hfb
            _ ≤ (pickBest b r).size := ih b b (List.mem_cons_self b r)
        · exact ih b x (List.mem_cons_of_mem b h2)

theorem addGroup_nonempty (k : Str) (f : SrcFile) :
    ∀ (gs : List (Str × List SrcFile)),
      (∀ p ∈ gs, p.2 ≠ []) → ∀ p ∈ addGroup k f gs, p.2 ≠ [] := by
  intro gs
  induction gs with
  | nil =>
    intro _ p hp
    rw [addGroup] at hp
    rcases List.mem_cons.1 hp with h1 | h1
    · rw [h1]; simp
    · simp at h1
  | cons q r ih =>
    obtain ⟨k2, fs⟩ := q
    intro hinv p hp
    rw [addGroup] at hp
    by_cases hk : k2 = k
    · simp only [hk, if_pos] at hp
      rcases List.mem_cons.1 hp with h1 | h1
      · rw [h1]; simp
      · exact hinv p (List.mem_cons_of_mem _ h1)
    · simp only [hk, if_neg, if_false] at hp
      rcases List.mem_cons.1 hp with h1 | h1
      · rw [h1]
        exact hinv (k2, fs) (List.mem_cons_self _ _)
      · exact ih (fun q hq => hinv q (List.mem_cons_of_mem _ hq)) p h1

theorem groupFiles_nonempty (files : List SrcFile) :
    ∀ p ∈ groupFiles files, p.2 ≠ [] := by
  rw [groupFiles]
  generalize hgs : ([] : List (Str × List SrcFile)) = gs
  have hinv : ∀ p ∈ gs, p.2 ≠ [] := by rw [← hgs]; simp
  clear hgs
  induction files generalizing gs with
  | nil => simpa using hinv
  | cons f r ih =>
    rw [List.foldl_cons]
    apply ih
    cases hb : mdBase f.name with
    | none => simpa [hb] using hinv
    | some b =>
      simp only [hb]
      exact addGroup_nonempty b f gs hinv

/-- C6: every group of artifact files sharing a base name gets exactly
one representative, a member of maximal byte size; in particular `a.md`
of 500 bytes and `a.md.resolved` of 900 bytes group under `a` with the
900-byte file selected. -/
theorem C6_grouping :
    (∀ (files : List SrcFile) (b : Str) (fs : List SrcFile),
      (b, fs) ∈ groupFiles files →
      ∃ rep, bestOf fs = some rep ∧ rep ∈ fs ∧ ∀ f ∈ fs, f.size ≤ rep.size) ∧
    groupFiles [exA, exR] = [("a".toList, [exA, exR])] ∧
    bestFilesMap [exA, exR] = [("a".toList, exR)] ∧
    exR.size = 900 := by
  refine ⟨?_, by decide, by decide, by decide⟩
  intro files b fs hmem
  have hne : fs ≠ [] := groupFiles_nonempty files (b, fs) hmem
  cases fs with
  | nil => exact absurd rfl hne
  | cons f r =>
    exact ⟨pickBest f r, rfl, pickBest_mem r f, fun x hx => pickBest_le r f x hx⟩

/-- C6 witness: the grouping fact instantiated on the 500-byte and
900-byte pair. -/
theorem C6_grouping_witness :
    ("a".toList, [exA, exR]) ∈ groupFiles [exA, exR] ∧
    ∃ rep, bestOf [exA, exR] = some rep ∧ rep ∈ [exA, exR] ∧
      ∀ f ∈ [exA, exR], f.size ≤ rep.size :=
  ⟨by decide, C6_grouping.1 [exA, exR] "a".toList [exA, exR] (by decide)⟩

theorem claimNote_imp_notePat {s : Str} (h : claimNoteShape s = true) :
    notePat s = true := by
  rw [claimNoteShape] at h
  rw [notePat]
  simp only [Bool.and_eq_true, Bool.or_eq_true, decide_eq_true_eq] at h ⊢
  refine ⟨⟨⟨h.1.1.1, h.1.1.2⟩, ?_⟩, h.2⟩
  rcases h.1.2 with h1 | h1
  · left
    rw [h1]
    decide
  · right
    exact h1

theorem recordTs_eq (inp : ConvInput) (t : Int)
    (hts : inp.timestamp = some t) (ht : ¬ t = 0) :
    recordTs inp = stUpdate inp.state inp.hashId t := by
  rw [recordTs, hts]
  simp [ht]

theorem dirExists_true_of_not_false {inp : ConvInput}
    (h : ¬ inp.dirExists = false) : inp.dirExists = true := by
  revert h
  cases inp.dirExists <;> simp

/-- C8: once conversion reaches the write step, a failed write returns
false without recording the supplied timestamp, while a content-quality
rejection (default-title pattern or too-short content) returns false but
records the supplied timestamp. -/
theorem C8_write_vs_quality (inp : ConvInput) (t : Int)
    (hts : inp.timestamp = some t) (ht : 0 < t) :
    ((convert inp).outcome = .writeFailed →
      (convert inp).result = false ∧ (convert inp).state2 = inp.state) ∧
    (((convert inp).outcome = .rejectedTitle ∨
      (convert inp).outcome = .rejectedShort) →
      (convert inp).result = false ∧
      (convert inp).state2 = stUpdate inp.state inp.hashId t) := by
  have ht0 : ¬ t = 0 := by omega
  have hrec := recordTs_eq inp t hts ht0
  by_cases hd : inp.dirExists = false
  · constructor <;> intro hoc <;> simp [convert, hd] at hoc
  · have hd2 := dirExists_true_of_not_false hd
    simp only [convert, hd2, Bool.true_eq_false, if_false]
    split_ifs with h1 h2 h3 <;> simp [hrec]

/-- C8 witness: a concrete session whose write fails; the conversion
returns false and the state store is unchanged. -/
theorem C8_write_vs_quality_witness :
    inpZebraNoWrite.timestamp = some 5 ∧
    (convert inpZebraNoWrite).outcome = .writeFailed ∧
    (convert inpZebraNoWrite).result = false ∧
    (convert inpZebraNoWrite).state2 = inpZebraNoWrite.state := by
  have h := (C8_write_vs_quality inpZebraNoWrite 5 rfl (by decide)).1 (by decide)
  exact ⟨rfl, by decide, h.1, h.2⟩

/-- C9: any extracted heading starting with `Note`, a space or hyphen,
and a hex digit (case-insensitively) is rejected: conversion returns
false, writes nothing, and still records a supplied timestamp. -/
theorem C9_note_prefix_rejected (inp : ConvInput) (g0 g1 : Str) (t : Int)
    (hd : inp.dirExists = true)
    (hft : findTitle (buildFull inp.files) = some (g0, g1))
    (hcp : claimNoteShape (stripStr g1) = true)
    (hts : inp.timestamp = some t) (ht : 0 < t) :
    (convert inp).result = false ∧ (convert inp).note = none ∧
    (convert inp).state2 = stUpdate inp.state inp.hashId t := by
  have ht0 : ¬ t = 0 := by omega
  have hrec := recordTs_eq inp t hts ht0
  have htitle : titleIn inp = stripStr g1 := by
    rw [titleIn, titleOf, hft]
  have hnp : notePat (titleIn inp) = true := by
    rw [htitle]
    exact claimNote_imp_notePat hcp
  simp [convert, hd, hnp, hrec]

/-- C9 witness: the genuine heading `Note-Based Workflow` is rejected
and the session is marked processed. -/
theorem C9_note_prefix_rejected_witness :
    findTitle (buildFull filesNotePfx)
      = some ("# Note-Based Workflow".toList, "Note-Based Workflow".toList) ∧
    claimNoteShape (stripStr "Note-Based Workflow".toList) = true ∧
    claimNoteShape "Note 2 remember".toList = true ∧
    (convert inpNotePfx).result = false ∧
    (convert inpNotePfx).note = none ∧
    (convert inpNotePfx).state2
      = stUpdate inpNotePfx.state inpNotePfx.hashId 5 := by
  have h := C9_note_prefix_rejected inpNotePfx
    "# Note-Based Workflow".toList "Note-Based Workflow".toList 5
    rfl (by decide) (by decide) rfl (by decide)
  exact ⟨by decide, by decide, by decide, h.1, h.2.1, h.2.2⟩

/-- C5 amended: the first heading's text (trimmed) becomes the title,
and the buffer is rewritten by one global `replace` pass that removes
every occurrence of the exact matched heading text, not only the first:
the length drops by the heading length times the occurrence count. -/
theorem C5_title_removal :
    (∀ (inp : ConvInput) (g0 g1 : Str), inp.dirExists = true →
      findTitle (buildFull inp.files) = some (g0, g1) →
      (convert inp).title = stripStr g1 ∧
      (convert inp).fullAfterTitle = strReplace g0 [] (buildFull inp.files)) ∧
    (∀ old s : Str, old ≠ [] →
      (strReplace old [] s).length + old.length * countOcc old s
        = s.length) := by
  refine ⟨?_, fun old s h => strReplace_len old s h⟩
  intro inp g0 g1 hd hft
  have htitle : titleIn inp = stripStr g1 := by
    rw [titleIn, titleOf, hft]
  have hfull : fullIn inp = strReplace g0 [] (buildFull inp.files) := by
    rw [fullIn, fullAfter, hft]
  simp only [convert, hd, Bool.true_eq_false, if_false]
  split_ifs with h1 h2 h3 <;> exact ⟨htitle, hfull⟩

/-- C5 amended witness: the duplicate-heading session instantiates the
title and buffer facts. -/
theorem C5_title_removal_witness :
    findTitle (buildFull filesDup)
      = some ("# Dup Title".toList, "Dup Title".toList) ∧
    (convert inpDup).title = stripStr "Dup Title".toList ∧
    (convert inpDup).fullAfterTitle
      = strReplace "# Dup Title".toList [] (buildFull filesDup) := by
  have h := C5_title_removal.1 inpDup
    "# Dup Title".toList "Dup Title".toList rfl (by decide)
  exact ⟨by decide, h.1, h.2⟩

theorem renderNote_decomp (t c u o a content : Str) :
    renderNote t c u o a content
      = renderHeader t c u o a ++ content ++ ['\n'] := by
  simp [renderNote, renderHeader, List.append_assoc]

/-- C3 amended: the ignore-list removal pass applies to the assembled
content body only, before link rewriting; the note is the unsanitized
header fields followed by that body, and the pass guarantees absence
from the body only for single-character ignore strings. -/
theorem C3_redaction_scope (inp : ConvInput)
    (hw : (convert inp).outcome = .written) :
    ∃ n, (convert inp).note = some n ∧
      n = renderHeader (convert inp).title (cDateOf inp) inp.nowDate
            (convert inp).overviewFinal (convert inp).abstractFinal
          ++ (convert inp).processed ++ ['\n'] ∧
      (convert inp).processed = convertGithubLinks (convert inp).sanitized ∧
      ∀ c : Char, [c] ∈ inp.ignores → c ∉ (convert inp).sanitized := by
  by_cases hd : inp.dirExists = false
  · simp [convert, hd] at hw
  · have hd2 := dirExists_true_of_not_false hd
    simp only [convert, hd2, Bool.true_eq_false, if_false] at hw ⊢
    split_ifs at hw ⊢ with h1 h2 h3
    refine ⟨noteOf inp, rfl, ?_, rfl, ?_⟩
    · show noteOf inp = renderHeader (titleIn inp) (cDateOf inp) inp.nowDate
        (ovFinalOf inp) (abFinalOf inp) ++ processedOf inp ++ ['\n']
      rw [noteOf, renderNote_decomp]
    · intro c hc
      exact sanitize_single_absent inp.ignores _ c hc

/-- C3 amended witness: the single-character ignore string `Z` is absent
from the sanitized body of the Zebra session. -/
theorem C3_redaction_scope_witness :
    (convert inpZebra).outcome = .written ∧
    ∃ n, (convert inpZebra).note = some n ∧
      n = renderHeader (convert inpZebra).title (cDateOf inpZebra)
            inpZebra.nowDate (convert inpZebra).overviewFinal
            (convert inpZebra).abstractFinal
          ++ (convert inpZebra).processed ++ ['\n'] ∧
      (convert inpZebra).processed
        = convertGithubLinks (convert inpZebra).sanitized ∧
      ∀ c : Char, [c] ∈ inpZebra.ignores → c ∉ (convert inpZebra).sanitized :=
  ⟨by decide, C3_redaction_scope inpZebra (by decide)⟩

/-- C4 amended: when every valid abstract candidate equals the chosen
overview and the overview is not the sentinel, the extraction returns
the sentinel `See content below.`, and that sentinel, which differs from
the overview, is what is written as the abstract (the fixed
`See details in Content section.` replacement does not fire). -/
theorem C4_abstract_fallback (inp : ConvInput)
    (hall : ∀ p ∈ abstractCandidates inp.files,
      passes none p = none ∨ passes none p = some (overviewOf inp.files))
    (hov : overviewOf inp.files ≠ sentinel) :
    abstractOf inp.files = sentinel ∧
    ((convert inp).outcome = .written →
      (convert inp).abstractFinal = sentinel ∧
      (convert inp).abstractFinal ≠ (convert inp).overviewFinal) := by
  have habs : abstractOf inp.files = sentinel := by
    rw [abstractOf, smartExtract_eq, smartExtractSpec]
    have hnone : (allParas [getC inp.files "implementation_plan".toList,
        getC inp.files "task".toList, lastOther inp.files]).findSome?
          (passes (some (overviewOf inp.files))) = none := by
      rw [List.findSome?_eq_none_iff]
      intro p hp
      rw [passes_some_eq]
      rcases hall p hp with h | h <;> simp [h]
    rw [hnone]
    rfl
  refine ⟨habs, ?_⟩
  intro hw
  have hov2 : ovFinalOf inp = overviewOf inp.files := by
    rw [ovFinalOf, if_neg hov]
  have hab2 : abFinalOf inp = sentinel := by
    rw [abFinalOf, habs, hov2, if_neg (fun hh => hov hh.symm)]
  by_cases hd : inp.dirExists = false
  · simp [convert, hd] at hw
  · have hd2 := dirExists_true_of_not_false hd
    simp only [convert, hd2, Bool.true_eq_false, if_false] at hw ⊢
    split_ifs at hw ⊢ with h1 h2 h3
    constructor
    · show abFinalOf inp = sentinel
      exact hab2
    · show abFinalOf inp ≠ ovFinalOf inp
      rw [hab2, hov2]
      exact fun h => hov h.symm

/-- C4 amended witness: the twin session instantiates the fallback. -/
theorem C4_abstract_fallback_witness :
    abstractOf inpTwin.files = sentinel ∧
    ((convert inpTwin).outcome = .written →
      (convert inpTwin).abstractFinal = sentinel ∧
      (convert inpTwin).abstractFinal ≠ (convert inpTwin).overviewFinal) :=
  C4_abstract_fallback inpTwin (by decide) (by decide)

end SyncNotes
